import Mathlib

/-!
Verification of the rwled real-time LED controller against its design
specification.  The Rust source is shallowly embedded: machine integers
become `Nat`, 32-bit floats become exact rationals (`ℚ`), fallible or
panicking operations return `Option`, and the asynchronous fan-out of the
composite sink is modelled by an explicit poll-round semantics.
-/

set_option maxRecDepth 4000

/-- A pixel with three floating-point channels (r, g, b), as stored in
`Strip.leds : Vec<RGB<f32>>`; f32 arithmetic is modelled by exact `ℚ`. -/
abbrev PixQ : Type := ℚ × ℚ × ℚ

/-- A pixel with three 8-bit channels, as carried on the wire (`RGB8`). -/
abbrev Pix8 : Type := ℕ × ℕ × ℕ

/-- The largest of the three channels of a pixel, as computed by
`led.iter().reduce(f32::max)` in `fade_led` and `audvis_process`. -/
def max3 (p : PixQ) : ℚ := max p.1 (max p.2.1 p.2.2)

/-- Fuel-driven worker for `chunksList`; the fuel starts at the list length
so the recursion is structural and computes by kernel reduction. -/
def chunksGo (n : ℕ) : ℕ → List α → List (List α)
  | _, [] => []
  | 0, _ :: _ => []
  | fuel + 1, x :: xs => ((x :: xs).take n) :: chunksGo n fuel ((x :: xs).drop n)

/-- Rust's `slice::chunks(n)`: contiguous chunks of size `n`, the last chunk
possibly shorter, no empty chunks.  (`chunks(0)` panics in Rust; callers that
can reach `n = 0` model that panic themselves.) -/
def chunksList (n : ℕ) (l : List α) : List (List α) := chunksGo n l.length l

/-- The decoder-visible state of `Strip`: the pixel buffer, the dirty flag
and the rainbow speed.  The sink tree is modelled separately. -/
structure Strip where
  leds : List PixQ
  pending : Bool
  rainbow : ℚ
  deriving DecidableEq, Repr

/-- `Strip::set_led`: `c.as_rgb()[0]` reads the first 3 bytes of `c` as an
`RGB8` and panics (`none`) when fewer than 3 bytes are present; a Vec index
out of bounds would also panic.  On success the pixel is stored (u8 → f32
is exact) and the dirty flag is set. -/
def setLed (s : Strip) (idx : ℕ) (c : List ℕ) : Option Strip :=
  match c with
  | r :: g :: b :: _ =>
    if idx < s.leds.length then
      some { s with leds := s.leds.set idx ((r : ℚ), (g : ℚ), (b : ℚ)), pending := true }
    else none
  | _ => none

/-- `update_warls`: the sparse (mode 1) payload is read in 4-byte chunks
`[index, r, g, b]`; an in-range index updates that pixel, an out-of-range
index is skipped.  A propagated `none` is a panic inside the loop. -/
def updateWarls (s : Strip) (buf : List ℕ) : Option Strip :=
  (chunksList 4 buf).foldl
    (fun acc c =>
      acc.bind fun st =>
        match c with
        | [] => none
        | i :: rest => if i < st.leds.length then setLed st i rest else some st)
    (some s)

/-- `update_drgb`: the sequential (mode 2) payload is read in 3-byte chunks
applied to positions `0..N` in order; chunks beyond `N` are dropped by
`take`; the dirty flag is set unconditionally first. -/
def updateDrgb (s : Strip) (buf : List ℕ) : Option Strip :=
  (((chunksList 3 buf).take s.leds.length).enum).foldl
    (fun acc ic => acc.bind fun st => setLed st ic.1 ic.2)
    (some { s with pending := true })

/-- ASCII bytes of the textual command payloads. -/
def strWarn : List ℕ := [119, 97, 114, 110]

/-- ASCII bytes of the payload toggling secure-stream membership. -/
def strHue : List ℕ := [104, 117, 101]

/-- ASCII bytes of the payload toggling the audio-visualization effect. -/
def strAudvis : List ℕ := [97, 117, 100, 118, 105, 115]

/-- ASCII bytes of the payload toggling the rainbow effect. -/
def strRainbow : List ℕ := [114, 97, 105, 110, 98, 111, 119]

/-- The datagram dispatch of the scheduler's socket arm, restricted to its
effect on the `Strip` state: modes 1 and 2 update the buffer (possibly
panicking, `none`), the exact textual payloads adjust effect state (the
alert arm paints the buffer blue before its takeover loop; the membership
and audio-vis toggles do not touch the buffer), and anything else is
logged and discarded unchanged.  Timer resets are not part of this state. -/
def applyDatagram (s : Strip) (d : List ℕ) : Option Strip :=
  match d with
  | 1 :: _timeout :: payload => updateWarls s payload
  | 2 :: _timeout :: payload => updateDrgb s payload
  | _ =>
    if d = strWarn then
      some { s with leds := s.leds.map fun _ => ((0 : ℚ), (0 : ℚ), (255 : ℚ)) }
    else if d = strHue then some s
    else if d = strAudvis then some s
    else if d = strRainbow then
      some { s with rainbow := if s.rainbow > 0 then 0 else 270 }
    else
      match d with
      | [114, n] => some { s with rainbow := 30 * (n : ℚ) }
      | [114, d1, d2] =>
        if 48 ≤ d1 ∧ d1 ≤ 57 ∧ 48 ≤ d2 ∧ d2 ≤ 57 then
          some { s with rainbow := 30 * ((10 * (d1 - 48) + (d2 - 48) : ℕ) : ℚ) }
        else some s
      | _ => some s

/-- A black pixel. -/
def blackPix : PixQ := ((0 : ℚ), (0 : ℚ), (0 : ℚ))

/-- An otherwise-black 3-pixel strip with no pending write and no rainbow. -/
def black3 : Strip := ⟨[blackPix, blackPix, blackPix], false, 0⟩

/-- The magic prefix and version/flags region of a Hue entertainment frame:
`buf[..9] = "HueStream"` and `buf[9..16] = [1,0,0,0,0,0,0]`. -/
def hueHeader : List ℕ :=
  [72, 117, 101, 83, 116, 114, 101, 97, 109, 1, 0, 0, 0, 0, 0, 0]

/-- One per-fixture record of `Hue::write`, exactly as the source array
literal: `[0, lid[0], lid[1], l.r, l.r, l.g, l.g, l.b, l.g]`.  Note that the
final byte duplicates the green channel, not blue. -/
def hueRecord (id : ℕ) (p : Pix8) : List ℕ :=
  [0, id / 256, id % 256, p.1, p.1, p.2.1, p.2.1, p.2.2, p.2.1]

/-- The frame assembled by `Hue::write`: the prefix followed by one record
per fixture in discovery order; the 106-byte buffer holds at most ten
records, so the `zip` with `buf[16..]` truncates there. -/
def hueFrame (lights : List ℕ) (colors : List Pix8) : List ℕ :=
  hueHeader ++ (((colors.zip lights).take 10).map fun ci => hueRecord ci.2 ci.1).flatten

/-- The connection-relevant state of the `Hue` sink: the fixture list fixed
at connect time and the `dtls_conn.is_some()` flag. -/
structure HueSink where
  lights : List ℕ
  connected : Bool
  deriving DecidableEq, Repr

/-- The outcome the secure channel reports for one `send` attempt; it is an
input of the model since the channel itself is an external collaborator. -/
inductive SendOutcome where
  | sendOk
  | sendErr
  deriving DecidableEq, Repr

/-- `Hue::write`: when connected, the frame is sent; a send failure is
swallowed by `unwrap_or_else`, which logs, clears `dtls_conn` and yields 0;
when disconnected, the `None` arm does nothing.  The function itself always
returns `Ok(())`.  The triple is (result, next state, bytes delivered). -/
def hueWrite (h : HueSink) (colors : List Pix8) (o : SendOutcome) :
    Except Unit Unit × HueSink × List ℕ :=
  match h.connected with
  | true =>
    match o with
    | .sendOk => (.ok (), h, hueFrame h.lights colors)
    | .sendErr => (.ok (), { h with connected := false }, [])
  | false => (.ok (), h, [])

/-- Truncated per-channel arithmetic mean of a chunk, as computed by the
`fold`/divide/`as u8` body of `scale`: channel sums are exact in f32 for
the sizes in play and the float-to-u8 cast truncates, so on natural-number
channels it is natural division by the chunk length. -/
def meanPix (chunk : List Pix8) : Pix8 :=
  ((chunk.map fun p => p.1).sum / chunk.length,
   (chunk.map fun p => p.2.1).sum / chunk.length,
   (chunk.map fun p => p.2.2).sum / chunk.length)

/-- `strip_transport::scale`: skip `range.start` source pixels, cut the rest
into chunks of `range.len() / leds`, keep the first `leds` chunks and send
each through the truncated mean.  `leds = 0` makes `range.len() / leds` a
division by zero and a zero chunk size makes `chunks(0)` abort; both panics
are `none`. -/
def scale (input : List Pix8) (rStart rEnd k : ℕ) : Option (List Pix8) :=
  if k = 0 then none
  else
    let c := (rEnd - rStart) / k
    if c = 0 then none
    else some (((chunksList c (input.drop rStart)).take k).map meanPix)

/-- The sink variants of `StripTransport`, stripped to what the `sample`
constructor inspects (its match is only on the variant head). -/
inductive Transport where
  | ws2812
  | hue
  | udp
  | dbgImage
  | composite (children : List Transport)
  | sampled (base : Transport) (rStart rEnd cnt : ℕ)

/-- `StripTransport::sample`: wrapping a Composite or Sampled sink aborts
("not permitted", `none`); any other base is accepted with the given range
and count, with no validation of the count. -/
def sample (t : Transport) (rStart rEnd cnt : ℕ) : Option Transport :=
  match t with
  | .composite _ => none
  | .sampled _ _ _ _ => none
  | t => some (.sampled t rStart rEnd cnt)

/-- Concrete four-pixel source used to witness the Sampled-sink theorem. -/
def claim5Input : List Pix8 := [(10, 20, 30), (20, 40, 60), (100, 200, 50), (7, 7, 7)]

/-- `fade_led`: a non-positive factor changes nothing; otherwise every
channel is decayed by `factor` times the pixel's own peak channel and then
clamped from below at `0.001`; the returned flag reports whether the pixel
changed. -/
def fadeLed (factor : ℚ) (p : PixQ) : PixQ × Bool :=
  if factor ≤ 0 then (p, false)
  else
    (⟨max (1 / 1000) (p.1 - max3 p * factor),
      max (1 / 1000) (p.2.1 - max3 p * factor),
      max (1 / 1000) (p.2.2 - max3 p * factor)⟩,
     decide ((max (1 / 1000) (p.1 - max3 p * factor),
      max (1 / 1000) (p.2.1 - max3 p * factor),
      max (1 / 1000) (p.2.2 - max3 p * factor)) ≠ p))

/-- One idle-fade application to a single pixel, at the fixed factor 0.10
used by the idle-deadline arm. -/
def fadeStep (p : PixQ) : PixQ := (fadeLed (1 / 10) p).1

/-- The filter of the idle-fade arm: `led.iter().any(|f| f >= 0_f32)`. -/
def anyNonneg (p : PixQ) : Bool :=
  decide (0 ≤ p.1) || decide (0 ≤ p.2.1) || decide (0 ≤ p.2.2)

/-- One idle-fade tick over the whole buffer: every pixel passing the
filter is faded. -/
def fadeTick (buf : List PixQ) : List PixQ :=
  buf.map fun p => if anyNonneg p then fadeStep p else p

/-- The pixel at the clamp floor, every channel exactly 0.001. -/
def millisPix : PixQ := (1 / 1000, 1 / 1000, 1 / 1000)

/-- The palette crate's `Clamp` on a float component: into `[0, 1]`. -/
def clamp01 (q : ℚ) : ℚ := min 1 (max 0 q)

/-- RGB to hue/saturation/value as the palette crate's `Srgb -> Hsv`
conversion used in `Strip::write`: the stored floats (0-255 scale) are fed
in unchanged but treated as [0,1]-scale components; hue is in degrees,
saturation is `delta / max` (0 when all channels are equal), value is the
peak channel.  `into_color()` clamps the converted `Hsv`, forcing
saturation and value into `[0, 1]` (so any stored channel at or above 1.0
yields full value); the circular hue is left unclamped. -/
def rgbToHsv (p : PixQ) : ℚ × ℚ × ℚ :=
  let bigM := max3 p
  let litM := min p.1 (min p.2.1 p.2.2)
  let d := bigM - litM
  let h :=
    if d = 0 then 0
    else if bigM = p.1 then 60 * ((p.2.1 - p.2.2) / d)
    else if bigM = p.2.1 then 60 * ((p.2.2 - p.1) / d + 2)
    else 60 * ((p.1 - p.2.1) / d + 4)
  let s := if d = 0 then 0 else d / bigM
  (h, clamp01 s, clamp01 bigM)

/-- Normalize a hue angle into `[0, 360)` degrees, as the palette crate's
`to_positive_degrees` does before the sextant split. -/
def hueWrap (h : ℚ) : ℚ := h - 360 * ⌊h / 360⌋

/-- Hue/saturation/value back to RGB, the palette crate's `Hsv -> Srgb`
conversion; the `into_color()` on the way out clamps each [0,1]-scale
component (a no-op when saturation and value are already in range). -/
def hsvToRgb (h s v : ℚ) : PixQ :=
  let hn := hueWrap h
  let c := v * s
  let hp := hn / 60
  let x := c * (1 - |hp - 2 * ⌊hp / 2⌋ - 1|)
  let m := v - c
  let base : PixQ :=
    if hp < 1 then (c, x, 0)
    else if hp < 2 then (x, c, 0)
    else if hp < 3 then (0, c, x)
    else if hp < 4 then (0, x, c)
    else if hp < 5 then (x, 0, c)
    else (c, 0, x)
  (clamp01 (base.1 + m), clamp01 (base.2.1 + m), clamp01 (base.2.2 + m))

/-- Rust's saturating float-to-int cast `ch as u8` on the non-rainbow
output path: truncate toward zero and saturate into `0..255` (the stored
floats are already on the 0-255 scale there). -/
def castU8 (q : ℚ) : ℕ := (min 255 (max 0 ⌊q⌋)).toNat

/-- The palette crate's `into_format::<u8>()` on the rainbow output path
(`u8::from_component`): scale the [0,1] component by 255, round, and
saturate.  Mathlib's `round` (half up) agrees with f32's half-away-from-zero
rounding on the nonnegative values produced here. -/
def compU8 (q : ℚ) : ℕ := (min 255 (max 0 (round (q * 255)))).toNat

/-- Per-pixel 8-bit narrowing of a rainbow-transformed pixel. -/
def pixCompU8 (p : PixQ) : Pix8 := (compU8 p.1, compU8 p.2.1, compU8 p.2.2)

/-- The rainbow transform of pixel `i` of `N` at speed `S`: convert the
stored color to HSV, add `S * (i / N)` to the hue, convert back. -/
def rainbowPixel (S : ℚ) (i N : ℕ) (p : PixQ) : PixQ :=
  let hsv := rgbToHsv p
  hsvToRgb (hsv.1 + S * ((i : ℚ) / (N : ℚ))) hsv.2.1 hsv.2.2

/-- `Strip::write`: clear the dirty flag; with rainbow enabled send the
hue-shifted view of the stored buffer, otherwise send the buffer as 8-bit
triples.  The stored buffer is consumed only through a borrowing iterator;
the returned strip carries the (unchanged) buffer. -/
def stripWrite (s : Strip) : Strip × List Pix8 :=
  if s.rainbow ≠ 0 then
    ({ s with pending := false },
     s.leds.enum.map fun ie => pixCompU8 (rainbowPixel s.rainbow ie.1 s.leds.length ie.2))
  else ({ s with pending := false },
     s.leds.map fun p => (castU8 p.1, castU8 p.2.1, castU8 p.2.2))

/-- Concrete two-pixel strip with rainbow speed 270 used to witness C8. -/
def claim8Strip : Strip :=
  ⟨[((255 : ℚ), (0 : ℚ), (0 : ℚ)), ((0 : ℚ), (128 : ℚ), (0 : ℚ))], true, 270⟩

/-- The poll-visible state of one child write inside the composite
fan-out: how many more polls it needs before completing, the result it
will complete with, and whether it has already completed successfully. -/
structure CState (ε : Type) where
  rem : ℕ
  res : Except ε Unit
  done : Bool

/-- One poll round of `try_join_all`: every not-yet-finished child future
is polled once, in order; the first child that completes with an error
makes the round return that error immediately, leaving the children after
the bail-out point (and every still-pending child) unpolled — they are
dropped, i.e. cancelled. -/
def pollRound {ε : Type} : List (CState ε) → Option ε × List (CState ε)
  | [] => (none, [])
  | c :: rest =>
    if c.done then
      ((pollRound rest).1, c :: (pollRound rest).2)
    else
      match c.rem, c.res with
      | 0, Except.error e => (some e, c :: rest)
      | 0, Except.ok _ =>
        ((pollRound rest).1, { c with done := true } :: (pollRound rest).2)
      | r + 1, _ =>
        ((pollRound rest).1, { c with rem := r } :: (pollRound rest).2)

/-- All child futures have completed successfully. -/
def allDone {ε : Type} (st : List (CState ε)) : Bool := st.all (·.done)

/-- Total outstanding poll work; strictly decreases every error-free
round while unfinished children remain. -/
def tjaMeasure {ε : Type} (st : List (CState ε)) : ℕ :=
  (st.map fun c => if c.done then 0 else c.rem + 1).sum

/-- Fuelled driver of `try_join_all`: return `Ok` once every child is
done, return the first ready error as soon as one completes with `Err`,
otherwise keep polling. -/
def runTJA {ε : Type} : ℕ → List (CState ε) → Option (Except ε Unit) × List (CState ε)
  | 0, st => (none, st)
  | fuel + 1, st =>
    if allDone st then (some (Except.ok ()), st)
    else
      match pollRound st with
      | (some e, st2) => (some (Except.error e), st2)
      | (none, st2) => runTJA fuel st2

/-- Initial state for a list of child writes, each given as (number of
pending polls before it is ready, its result). -/
def initTJA {ε : Type} (children : List (ℕ × Except ε Unit)) : List (CState ε) :=
  children.map fun c => ⟨c.1, c.2, false⟩

/-- `Composite` write = `try_join_all` over the child writes, with enough
fuel for the error-free worst case. -/
def tryJoinAll {ε : Type} (children : List (ℕ × Except ε Unit)) :
    Option (Except ε Unit) × List (CState ε) :=
  runTJA (tjaMeasure (initTJA children) + 1) (initTJA children)

/-- Some child still pending carries an error result. -/
def hasPendErr {ε : Type} (st : List (CState ε)) : Prop :=
  ∃ c ∈ st, c.done = false ∧ ∃ e, c.res = Except.error e

/-- `AVFACT_MIN`, the lower clamp of the adaptive gain. -/
def AVFACT_MIN : ℚ := 1

/-- `AVFACT_MAX`, the upper clamp of the adaptive gain. -/
def AVFACT_MAX : ℚ := 3

/-- `ratio_range`'s per-bound clamp: a ratio at most 0 maps to index 0, a
ratio at least 1 maps to the buffer length, anything between truncates
`ratio * length`. -/
def fracBound (f : ℚ) (len : ℕ) : ℕ :=
  if f ≤ 0 then 0 else if 1 ≤ f then len else (⌊f * (len : ℚ)⌋).toNat

/-- The `chval` closure of `audvis_process`: the mean of the red channel
over the ratio range `[s, e)` of the buffer. -/
def chval (leds : List PixQ) (s e : ℚ) : ℚ :=
  let rs := fracBound s leds.length
  let re := fracBound e leds.length
  ((((leds.drop rs).take (re - rs)).map fun p => p.1).sum) / ((re - rs : ℕ) : ℚ)

/-- The 3-band sample `ctr` of `audvis_process`, derived from the red
channel with per-band gains 1.2, 0.9 and 1.0 times the shared factor. -/
def avCtr (rawleds : List PixQ) (fact : ℚ) : PixQ :=
  (chval rawleds 0 (15 / 100) * (12 / 10) * fact,
   chval rawleds (25 / 100) (50 / 100) * (9 / 10) * fact,
   chval rawleds (50 / 100) 1 * fact)

/-- `audvis_process`: derive the sample with the current factor, bump the
factor by 0.001, cap it at `255 / peak` (in f32 a zero peak gives +inf, so
no cap), clamp it into `[AVFACT_MIN, AVFACT_MAX]`, and write the sample —
computed with the pre-update factor — to the buffer's center index. -/
def audvisProcess (rawleds avleds : List PixQ) (fact : ℚ) : List PixQ × ℚ :=
  let ctr := avCtr rawleds fact
  let f1 := fact + 1 / 1000
  let peak := max3 ctr
  let f2 := if peak = 0 then f1 else min f1 (255 / peak)
  (avleds.set (rawleds.length / 2) ctr, max AVFACT_MIN (min f2 AVFACT_MAX))

/-- A uniform pure-red 20-pixel buffer. -/
def raw20 : List PixQ := List.replicate 20 ((255 : ℚ), (0 : ℚ), (0 : ℚ))

/-- A black 20-pixel audio-vis buffer. -/
def av20 : List PixQ := List.replicate 20 blackPix

/-- C1: the decoder is not total.  A sparse datagram whose record section is
not a whole number of 4-byte records (here one truncated record with the
in-range index byte 0) makes `set_led` index `as_rgb()` of a slice shorter
than 3 bytes, which panics; likewise a sequential datagram with a trailing
partial triple.  The embedding returns `none` for the panic. -/
theorem claim1_decoder_truncated_record_panics :
    applyDatagram black3 [1, 255, 0, 255] = none ∧
    applyDatagram black3 [2, 10, 255] = none := by
  constructor <;> rfl

/-- C4 counterexample: the scenario datagram `[1,255,0,0,255,0]` carries the
record `[index 0, r 0, g 255, b 0]`, so pixel 0 does not become pure red
`(255,0,0)` as the claim states. -/
theorem claim4_sparse_scenario_not_red :
    (applyDatagram black3 [1, 255, 0, 0, 255, 0]).map Strip.leds ≠
      some [((255 : ℚ), (0 : ℚ), (0 : ℚ)), blackPix, blackPix] := by
  decide

/-- C4 amended: on an otherwise-black 3-pixel buffer the sparse datagram
`[1,255,0,0,255,0]` sets pixel 0 to pure green `(0,255,0)` (the record
channels are r = 0, g = 255, b = 0) and leaves all other pixels unchanged. -/
theorem claim4_sparse_scenario_green :
    (applyDatagram black3 [1, 255, 0, 0, 255, 0]).map Strip.leds =
      some [((0 : ℚ), (255 : ℚ), (0 : ℚ)), blackPix, blackPix] := by
  decide

/-- C2: the record written for a pure-blue pixel on fixture 1 ends in
`[255, 0]`, not the claimed 16-bit duplication `[255, 255]`: the source
writes the green channel into the low byte of the blue field. -/
theorem claim2_hue_frame_blue_low_byte_is_green :
    hueFrame [1] [(0, 0, 255)] =
      hueHeader ++ [0, 0, 1, 0, 0, 0, 0, 255, 0] ∧
    hueFrame [1] [(0, 0, 255)] ≠
      hueHeader ++ [0, 0, 1, 0, 0, 0, 0, 255, 255] := by
  constructor <;> decide

/-- C7: a Hue write never surfaces an error; the sink stays connected
exactly when it was connected and the send succeeded (so a send failure
transitions it to disconnected); and any write on a disconnected sink is a
silent no-op that delivers nothing, returns success and leaves the state
unchanged. -/
theorem claim7_securestream_degrade_silently
    (h : HueSink) (colors : List Pix8) (o : SendOutcome) :
    (hueWrite h colors o).1 = .ok () ∧
    (hueWrite h colors o).2.1.connected =
      (h.connected && (o == SendOutcome.sendOk)) ∧
    hueWrite ⟨h.lights, false⟩ colors o = (.ok (), ⟨h.lights, false⟩, []) := by
  cases h with
  | mk lights connected =>
    cases connected <;> cases o <;> simp [hueWrite]

/-- Unfolding equation for `chunksGo` on a nonempty list with fuel left. -/
theorem chunksGo_cons (n fuel : ℕ) (x : α) (xs : List α) :
    chunksGo n (fuel + 1) (x :: xs) =
      ((x :: xs).take n) :: chunksGo n fuel ((x :: xs).drop n) := rfl

/-- `chunksGo` on the empty list is empty for any fuel. -/
theorem chunksGo_nil (n fuel : ℕ) : chunksGo n fuel ([] : List α) = [] := by
  cases fuel <;> rfl

/-- For a positive chunk size, `chunksGo` only depends on the fuel through
it being at least the list length. -/
theorem chunksGo_fuel (n : ℕ) (hn : 0 < n) :
    ∀ fuel1 fuel2 (l : List α), l.length ≤ fuel1 → l.length ≤ fuel2 →
      chunksGo n fuel1 l = chunksGo n fuel2 l := by
  intro fuel1
  induction fuel1 using Nat.strong_induction_on with
  | _ fuel1 ih =>
    intro fuel2 l h1 h2
    match l, fuel1, fuel2 with
    | [], f1, f2 => rw [chunksGo_nil, chunksGo_nil]
    | x :: xs, f1 + 1, f2 + 1 =>
      simp only [chunksGo_cons]
      simp only [List.length_cons] at h1 h2
      refine congrArg _ (ih f1 (Nat.lt_succ_self f1) f2 _ ?_ ?_) <;>
        simp only [List.length_drop, List.length_cons] <;> omega

/-- Head unfolding of `chunksList` on a nonempty list. -/
theorem chunksList_cons (n : ℕ) (hn : 0 < n) (x : α) (xs : List α) :
    chunksList n (x :: xs) =
      ((x :: xs).take n) :: chunksList n ((x :: xs).drop n) := by
  have hfuel : ((x :: xs).drop n).length ≤ xs.length := by
    simp only [List.length_drop, List.length_cons]; omega
  simp only [chunksList, List.length_cons, chunksGo_cons]
  rw [chunksGo_fuel n hn xs.length ((x :: xs).drop n).length _ hfuel le_rfl]

/-- The `j`-th chunk of `chunksList n l` is the length-`n` slice of `l`
starting at offset `j * n`, whenever that offset is inside `l`. -/
theorem chunksList_getElem? (n : ℕ) (hn : 0 < n) :
    ∀ (j : ℕ) (l : List α), j * n < l.length →
      (chunksList n l)[j]? = some ((l.drop (j * n)).take n) := by
  intro j
  induction j with
  | zero =>
    intro l hl
    match l with
    | x :: xs => rw [chunksList_cons n hn]; simp
  | succ j ih =>
    intro l hl
    have hmul : (j + 1) * n = j * n + n := by ring
    match l, hl with
    | x :: xs, hl =>
      have hlen : (j + 1) * n < (x :: xs).length := hl
      simp only [List.length_cons] at hlen
      have hdrop : j * n < ((x :: xs).drop n).length := by
        simp only [List.length_drop, List.length_cons]
        omega
      rw [chunksList_cons n hn]
      calc (((x :: xs).take n) :: chunksList n ((x :: xs).drop n))[j + 1]?
          = (chunksList n ((x :: xs).drop n))[j]? := by simp
        _ = some ((((x :: xs).drop n).drop (j * n)).take n) := ih _ hdrop
        _ = some (((x :: xs).drop ((j + 1) * n)).take n) := by
            have harith : n + j * n = (j + 1) * n := by ring
            rw [List.drop_drop, harith]

/-- The chunk sizes consumed by the first `k` chunks sum to `k * n` when the
source is long enough. -/
theorem chunksList_take_sizes (n : ℕ) (hn : 0 < n) :
    ∀ (k : ℕ) (l : List α), k * n ≤ l.length →
      (((chunksList n l).take k).map List.length).sum = k * n := by
  intro k
  induction k with
  | zero => intro l _; simp
  | succ k ih =>
    intro l hl
    have hmul : (k + 1) * n = k * n + n := by ring
    have hpos : 0 < l.length := by omega
    match l with
    | x :: xs =>
      simp only [List.length_cons] at hl
      have hdroplen : k * n ≤ ((x :: xs).drop n).length := by
        simp only [List.length_drop, List.length_cons]
        omega
      rw [chunksList_cons n hn]
      simp only [List.take_succ_cons, List.map_cons, List.sum_cons, ih _ hdroplen]
      have htake : ((x :: xs).take n).length = n := by
        simp only [List.length_take, List.length_cons]
        omega
      rw [htake]
      omega

/-- `chunksList` yields at least `k` chunks when the source holds `k` full
chunks. -/
theorem chunksList_length_ge (n : ℕ) (hn : 0 < n) (k : ℕ) (l : List α)
    (hl : k * n ≤ l.length) (hk : 0 < k) : k ≤ (chunksList n l).length := by
  by_contra hlt
  push_neg at hlt
  have hmul : ((k - 1) + 1) * n = (k - 1) * n + n := by ring
  have hk1 : (k - 1) + 1 = k := by omega
  have hidx : (k - 1) * n < l.length := by
    rw [hk1] at hmul
    omega
  have hsome := chunksList_getElem? n hn (k - 1) l hidx
  have hnone : (chunksList n l)[k - 1]? = none := by
    apply List.getElem?_eq_none
    omega
  rw [hnone] at hsome
  exact Option.noConfusion hsome

/-- A truncated mean of 8-bit values stays within 8 bits. -/
theorem natMean_le_255 (l : List ℕ) (h : ∀ x ∈ l, x ≤ 255) :
    l.sum / l.length ≤ 255 := by
  rcases Nat.eq_zero_or_pos l.length with hz | hpos
  · simp [hz, Nat.div_zero]
  · have hsum : l.sum ≤ l.length * 255 := by
      calc l.sum ≤ l.length • 255 := List.sum_le_card_nsmul l 255 h
        _ = l.length * 255 := by rw [smul_eq_mul]
    calc l.sum / l.length ≤ (l.length * 255) / l.length :=
          Nat.div_le_div_right hsum
      _ = 255 := Nat.mul_div_cancel_left _ hpos

/-- A truncated per-channel mean of 8-bit pixels stays within 8 bits. -/
theorem meanChannel_le_255 (chunk : List Pix8) (f : Pix8 → ℕ)
    (h : ∀ p ∈ chunk, f p ≤ 255) : (chunk.map f).sum / chunk.length ≤ 255 := by
  have h2 : ∀ x ∈ chunk.map f, x ≤ 255 := by
    intro x hx
    obtain ⟨p, hp, rfl⟩ := List.mem_map.mp hx
    exact h p hp
  have hle := natMean_le_255 (chunk.map f) h2
  rwa [List.length_map] at hle

/-- C5: for a Sampled write over a source range of length `L = rEnd - rStart`
downsampled to `k` targets with `1 ≤ k ≤ L`, the scale step succeeds, yields
exactly `k` target pixels, pixel `j` is the truncated (floor) per-channel
mean of the contiguous chunk of `c = L / k` source pixels starting at
`rStart + j * c`, each output channel stays in `0..255` for 8-bit input, and
the chunk sizes actually consumed sum to `k * c` (the remainder pixels are in
no chunk). -/
theorem claim5_sampled_truncated_mean
    (input : List Pix8) (rStart rEnd k : ℕ)
    (hk : 1 ≤ k) (hkL : k ≤ rEnd - rStart) (hlen : rEnd ≤ input.length)
    (h255 : ∀ p ∈ input, p.1 ≤ 255 ∧ p.2.1 ≤ 255 ∧ p.2.2 ≤ 255) :
    ∃ out, scale input rStart rEnd k = some out ∧
      out.length = k ∧
      (∀ j, j < k → out[j]? =
        some (meanPix ((input.drop (rStart + j * ((rEnd - rStart) / k))).take
          ((rEnd - rStart) / k)))) ∧
      (∀ j, j < k → ∀ q, out[j]? = some q →
        q.1 ≤ 255 ∧ q.2.1 ≤ 255 ∧ q.2.2 ≤ 255) ∧
      (((chunksList ((rEnd - rStart) / k) (input.drop rStart)).take k).map
        List.length).sum = k * ((rEnd - rStart) / k) := by
  have hk0 : k ≠ 0 := by omega
  have hkpos : 0 < k := hk
  have hc : 0 < (rEnd - rStart) / k := (Nat.one_le_div_iff hkpos).mpr hkL
  set L := rEnd - rStart with hL
  set c := L / k with hcdef
  have hkc : k * c ≤ L := by
    calc k * c = c * k := Nat.mul_comm _ _
      _ ≤ L := Nat.div_mul_le_self L k
  have hdroplen : k * c ≤ (input.drop rStart).length := by
    simp only [List.length_drop]
    omega
  have hscale : scale input rStart rEnd k =
      some (((chunksList c (input.drop rStart)).take k).map meanPix) := by
    simp only [scale, hk0, if_false, ← hL, ← hcdef]
    rw [if_neg (by omega)]
  refine ⟨((chunksList c (input.drop rStart)).take k).map meanPix, hscale, ?_, ?_, ?_, ?_⟩
  · have hcl : k ≤ (chunksList c (input.drop rStart)).length :=
      chunksList_length_ge c hc k _ hdroplen hkpos
    simp only [List.length_map, List.length_take]
    omega
  · intro j hj
    have hjc : j * c < (input.drop rStart).length := by
      have hmul : (j + 1) * c = j * c + c := by ring
      have hle : (j + 1) * c ≤ k * c := Nat.mul_le_mul_right c (by omega)
      omega
    have hchunk := chunksList_getElem? c hc j (input.drop rStart) hjc
    rw [List.getElem?_map, List.getElem?_take, if_pos hj, hchunk]
    simp only [Option.map_some']
    rw [List.drop_drop]
  · intro j hj q hq
    have hjc : j * c < (input.drop rStart).length := by
      have hmul : (j + 1) * c = j * c + c := by ring
      have hle : (j + 1) * c ≤ k * c := Nat.mul_le_mul_right c (by omega)
      omega
    have hchunk := chunksList_getElem? c hc j (input.drop rStart) hjc
    rw [List.getElem?_map, List.getElem?_take, if_pos hj, hchunk] at hq
    simp only [Option.map_some', Option.some_inj] at hq
    subst hq
    have hmem : ∀ p ∈ ((input.drop rStart).drop (j * c)).take c, p ∈ input := by
      intro p hp
      exact List.mem_of_mem_drop (List.mem_of_mem_drop (List.mem_of_mem_take hp))
    refine ⟨?_, ?_, ?_⟩ <;> simp only [meanPix]
    · exact meanChannel_le_255 _ _ fun p hp => (h255 p (hmem p hp)).1
    · exact meanChannel_le_255 _ _ fun p hp => (h255 p (hmem p hp)).2.1
    · exact meanChannel_le_255 _ _ fun p hp => (h255 p (hmem p hp)).2.2
  · exact chunksList_take_sizes c hc k _ hdroplen

/-- Witness for C5 at a concrete input: range `0..4` downsampled to 2
targets of chunk size 2. -/
theorem claim5_sampled_truncated_mean_witness :
    (1 ≤ 2 ∧ 2 ≤ 4 - 0 ∧ 4 ≤ claim5Input.length ∧
      ∀ p ∈ claim5Input, p.1 ≤ 255 ∧ p.2.1 ≤ 255 ∧ p.2.2 ≤ 255) ∧
    (∃ out, scale claim5Input 0 4 2 = some out ∧
      out.length = 2 ∧
      (∀ j, j < 2 → out[j]? =
        some (meanPix ((claim5Input.drop (0 + j * ((4 - 0) / 2))).take ((4 - 0) / 2)))) ∧
      (∀ j, j < 2 → ∀ q, out[j]? = some q →
        q.1 ≤ 255 ∧ q.2.1 ≤ 255 ∧ q.2.2 ≤ 255) ∧
      (((chunksList ((4 - 0) / 2) (claim5Input.drop 0)).take 2).map
        List.length).sum = 2 * ((4 - 0) / 2)) :=
  ⟨by decide,
   claim5_sampled_truncated_mean claim5Input 0 4 2 (by decide) (by decide)
     (by decide) (by decide)⟩

/-- C10: writing through a Sampled sink panics exactly when the target count
`k` is zero (the chunk size division panics) or exceeds the source range
length `L = rEnd - rStart` (the chunk size `L / k` is zero and `chunks(0)`
panics); and the `sample` constructor accepts any count on a plain base
without validation, so panic freedom requires `1 ≤ k ≤ L`. -/
theorem claim10_sampled_panic_condition (input : List Pix8) (rStart rEnd k : ℕ) :
    ((scale input rStart rEnd k).isNone ↔ (k = 0 ∨ rEnd - rStart < k)) ∧
    (sample Transport.udp rStart rEnd k).isSome = true := by
  refine ⟨?_, rfl⟩
  by_cases hk : k = 0
  · simp [scale, hk]
  · have hkpos : 0 < k := Nat.pos_of_ne_zero hk
    by_cases hc : (rEnd - rStart) / k = 0
    · have : rEnd - rStart < k := (Nat.div_eq_zero_iff hkpos).mp hc
      simp [scale, hk, hc, this]
    · have : ¬ rEnd - rStart < k := by
        intro hlt
        exact hc ((Nat.div_eq_zero_iff hkpos).mpr hlt)
      simp [scale, hk, hc, this]

/-- Explicit form of `fadeStep` (the 0.10 factor is positive, so the guard
branch is not taken). -/
theorem fadeStep_def (p : PixQ) :
    fadeStep p =
      (max (1 / 1000) (p.1 - max3 p * (1 / 10)),
       max (1 / 1000) (p.2.1 - max3 p * (1 / 10)),
       max (1 / 1000) (p.2.2 - max3 p * (1 / 10))) := by
  simp only [fadeStep, fadeLed, if_neg (by norm_num : ¬ (1 / 10 : ℚ) ≤ 0)]

/-- Every channel produced by a fade step is at least the 0.001 floor. -/
theorem fadeStep_ge_floor (p : PixQ) :
    (1 / 1000 : ℚ) ≤ (fadeStep p).1 ∧ (1 / 1000 : ℚ) ≤ (fadeStep p).2.1 ∧
      (1 / 1000 : ℚ) ≤ (fadeStep p).2.2 := by
  rw [fadeStep_def]
  exact ⟨le_max_left _ _, le_max_left _ _, le_max_left _ _⟩

/-- `max3` on an explicit triple. -/
theorem max3_mk (a b c : ℚ) : max3 (a, b, c) = max a (max b c) := rfl

/-- One fade step shrinks the peak channel to at most nine tenths of
itself, up to the clamp floor. -/
theorem max3_fadeStep_le (p : PixQ) :
    max3 (fadeStep p) ≤ max (1 / 1000) ((9 / 10) * max3 p) := by
  have h1 : p.1 ≤ max3 p := le_max_left _ _
  have h2 : p.2.1 ≤ max3 p := le_trans (le_max_left _ _) (le_max_right _ _)
  have h3 : p.2.2 ≤ max3 p := le_trans (le_max_right _ _) (le_max_right _ _)
  rw [fadeStep_def, max3_mk]
  refine max_le ?_ (max_le ?_ ?_) <;>
    · refine max_le (le_max_left _ _) (le_max_of_le_right ?_)
      linarith

/-- After `n` fade steps the peak channel is bounded by a geometric decay,
up to the clamp floor. -/
theorem max3_iter_le (p : PixQ) (n : ℕ) :
    max3 (fadeStep^[n] p) ≤ max (1 / 1000) ((9 / 10) ^ n * max3 p) := by
  induction n with
  | zero =>
    rw [Function.iterate_zero, id_eq, pow_zero, one_mul]
    exact le_max_right _ _
  | succ n ih =>
    have hnn : (0 : ℚ) ≤ 9 / 10 := by norm_num
    calc max3 (fadeStep^[n + 1] p)
        = max3 (fadeStep (fadeStep^[n] p)) := by rw [Function.iterate_succ_apply']
      _ ≤ max (1 / 1000) ((9 / 10) * max3 (fadeStep^[n] p)) := max3_fadeStep_le _
      _ ≤ max (1 / 1000) ((9 / 10) * max (1 / 1000) ((9 / 10) ^ n * max3 p)) := by
          exact max_le_max le_rfl (mul_le_mul_of_nonneg_left ih hnn)
      _ = max (1 / 1000)
            (max ((9 / 10) * (1 / 1000)) ((9 / 10) * ((9 / 10) ^ n * max3 p))) := by
          rw [mul_max_of_nonneg _ _ hnn]
      _ = max (1 / 1000) ((9 / 10) ^ (n + 1) * max3 p) := by
          rw [← max_assoc]
          have hleft : max (1 / 1000 : ℚ) ((9 / 10) * (1 / 1000)) = 1 / 1000 :=
            max_eq_left (by norm_num)
          have hright : (9 / 10 : ℚ) * ((9 / 10) ^ n * max3 p) =
              (9 / 10) ^ (n + 1) * max3 p := by ring
          rw [hleft, hright]

/-- Once the peak channel is at most 1/900, the next fade step lands every
channel exactly on the 0.001 floor. -/
theorem fadeStep_final (p : PixQ) (h : max3 p ≤ 1 / 900) :
    fadeStep p = millisPix := by
  have h1 : p.1 ≤ max3 p := le_max_left _ _
  have h2 : p.2.1 ≤ max3 p := le_trans (le_max_left _ _) (le_max_right _ _)
  have h3 : p.2.2 ≤ max3 p := le_trans (le_max_right _ _) (le_max_right _ _)
  have hm : (0 : ℚ) ≤ 1 / 900 - max3 p * (1 / 10) + (max3 p - max3 p) := by linarith
  rw [fadeStep_def]
  unfold millisPix
  refine Prod.ext ?_ (Prod.ext ?_ ?_) <;> simp only <;>
    exact max_eq_left (by linarith)

/-- A pixel whose first channel starts nonnegative keeps a nonnegative
first channel under iterated fade steps. -/
theorem fadeStep_iter_nonneg (p : PixQ) (h : 0 ≤ p.1) (n : ℕ) :
    0 ≤ (fadeStep^[n] p).1 := by
  cases n with
  | zero => simpa using h
  | succ m =>
    rw [Function.iterate_succ_apply']
    have := (fadeStep_ge_floor (fadeStep^[m] p)).1
    linarith

/-- On a buffer of pixels with nonnegative first channels the filter always
passes, so a tick is exactly a per-pixel fade step. -/
theorem fadeTick_map (buf : List PixQ) (h : ∀ p ∈ buf, 0 ≤ p.1) :
    fadeTick buf = buf.map fadeStep := by
  unfold fadeTick
  apply List.map_congr_left
  intro p hp
  have : anyNonneg p = true := by
    unfold anyNonneg
    simp only [Bool.or_eq_true, decide_eq_true_eq]
    exact Or.inl (Or.inl (h p hp))
  rw [if_pos this]

/-- Iterated ticks over a nonnegative buffer act pixelwise. -/
theorem fadeTick_iter_map (buf : List PixQ) (h : ∀ p ∈ buf, 0 ≤ p.1) (n : ℕ) :
    fadeTick^[n] buf = buf.map (fun p => fadeStep^[n] p) := by
  induction n with
  | zero => simp
  | succ n ih =>
    rw [Function.iterate_succ_apply', ih, fadeTick_map, List.map_map]
    · apply List.map_congr_left
      intro p _
      rw [Function.comp_apply]
      exact (Function.iterate_succ_apply' fadeStep n p).symm
    · intro q hq
      obtain ⟨p, hp, rfl⟩ := List.mem_map.mp hq
      exact fadeStep_iter_nonneg p (h p hp) n

/-- The geometric decay drops an 8-bit-scale peak below 1/900 within 119
steps. -/
theorem geom_bound_119 : (9 / 10 : ℚ) ^ 119 * 255 ≤ 1 / 900 := by
  norm_num

/-- A pixel with channels in `[0, 255]` lands exactly on the all-0.001
pixel after 120 fade steps. -/
theorem fadeStep_120 (p : PixQ)
    (h : (0 ≤ p.1 ∧ p.1 ≤ 255) ∧ (0 ≤ p.2.1 ∧ p.2.1 ≤ 255) ∧
      (0 ≤ p.2.2 ∧ p.2.2 ≤ 255)) :
    fadeStep^[120] p = millisPix := by
  have hm : max3 p ≤ 255 := max_le h.1.2 (max_le h.2.1.2 h.2.2.2)
  have hpow : (0 : ℚ) ≤ (9 / 10) ^ 119 := by positivity
  have h119 : max3 (fadeStep^[119] p) ≤ 1 / 900 := by
    calc max3 (fadeStep^[119] p)
        ≤ max (1 / 1000) ((9 / 10) ^ 119 * max3 p) := max3_iter_le p 119
      _ ≤ max (1 / 1000) ((9 / 10) ^ 119 * 255) :=
          max_le_max le_rfl (mul_le_mul_of_nonneg_left hm hpow)
      _ ≤ 1 / 900 := max_le (by norm_num) geom_bound_119
  have : fadeStep^[119 + 1] p = millisPix := by
    rw [Function.iterate_succ_apply']
    exact fadeStep_final _ h119
  exact this

/-- At the floor pixel, `fade_led` changes nothing and reports no change,
so the idle-fade sub-loop exits. -/
theorem fadeLed_millis : fadeLed (1 / 10) millisPix = (millisPix, false) := by
  have hm : max3 millisPix = 1 / 1000 := by
    simp [max3, millisPix]
  unfold fadeLed
  rw [if_neg (by norm_num : ¬ (1 / 10 : ℚ) ≤ 0)]
  have hX : (max (1 / 1000) (millisPix.1 - max3 millisPix * (1 / 10)),
      max (1 / 1000) (millisPix.2.1 - max3 millisPix * (1 / 10)),
      max (1 / 1000) (millisPix.2.2 - max3 millisPix * (1 / 10))) = millisPix := by
    rw [hm]
    refine Prod.ext ?_ (Prod.ext ?_ ?_) <;>
      simp only [millisPix] <;>
      exact max_eq_left (by norm_num)
  rw [hX]
  simp

/-- C3 counterexample: from a buffer with one pure-red pixel, the fade
trajectory converges (in 120 ticks, the bound proved below) to the buffer
whose channels all sit at 0.001, that buffer is a fixpoint of the fade
tick, and it is not the all-zero buffer — so the repeated ticks never reach
the exactly-all-zero buffer; the clamp floor 0.001 of `fade_led` is a
positive floor. -/
theorem claim3_fade_never_reaches_zero :
    fadeTick^[120] [((255 : ℚ), (0 : ℚ), (0 : ℚ))] = [millisPix] ∧
    fadeTick [millisPix] = [millisPix] ∧
    ([millisPix] : List PixQ) ≠ [((0 : ℚ), (0 : ℚ), (0 : ℚ))] := by
  have hstep : fadeStep millisPix = millisPix := congrArg Prod.fst fadeLed_millis
  refine ⟨?_, ?_, ?_⟩
  · have hnn : ∀ p ∈ [((255 : ℚ), (0 : ℚ), (0 : ℚ))], 0 ≤ p.1 := by
      intro p hp
      simp only [List.mem_singleton] at hp
      subst hp
      norm_num
    rw [fadeTick_iter_map _ hnn 120, List.map_cons, List.map_nil,
      fadeStep_120 _ (by decide)]
  · have hnn2 : anyNonneg millisPix = true := by
      simp only [anyNonneg, Bool.or_eq_true, decide_eq_true_eq]
      left; left
      norm_num [millisPix]
    simp only [fadeTick, List.map_cons, List.map_nil, hnn2, if_true, hstep]
  · norm_num [millisPix]

/-- C3 amended: from any buffer whose channels lie in `[0, 255]` (the range
reachable from 8-bit commands), 120 idle-fade ticks reach exactly the
buffer with every channel at the positive floor 0.001 — a finite, bounded
convergence, but to the 0.001 floor, never to the all-zero buffer — and at
that fixpoint `fade_led` reports no change, so the fade sub-loop
terminates and rearms the idle deadline. -/
theorem claim3_fade_converges_to_floor (buf : List PixQ)
    (h : ∀ p ∈ buf, (0 ≤ p.1 ∧ p.1 ≤ 255) ∧ (0 ≤ p.2.1 ∧ p.2.1 ≤ 255) ∧
      (0 ≤ p.2.2 ∧ p.2.2 ≤ 255)) :
    fadeTick^[120] buf = buf.map (fun _ => millisPix) ∧
    fadeLed (1 / 10) millisPix = (millisPix, false) := by
  constructor
  · rw [fadeTick_iter_map buf (fun p hp => (h p hp).1.1) 120]
    apply List.map_congr_left
    intro p hp
    exact fadeStep_120 p (h p hp)
  · exact fadeLed_millis

/-- Witness for C3 at a concrete one-pixel buffer. -/
theorem claim3_fade_converges_to_floor_witness :
    (∀ p ∈ [((255 : ℚ), (10 : ℚ), (0 : ℚ))],
      (0 ≤ p.1 ∧ p.1 ≤ 255) ∧ (0 ≤ p.2.1 ∧ p.2.1 ≤ 255) ∧
        (0 ≤ p.2.2 ∧ p.2.2 ≤ 255)) ∧
    (fadeTick^[120] [((255 : ℚ), (10 : ℚ), (0 : ℚ))] =
      [((255 : ℚ), (10 : ℚ), (0 : ℚ))].map (fun _ => millisPix) ∧
    fadeLed (1 / 10) millisPix = (millisPix, false)) :=
  ⟨by decide, claim3_fade_converges_to_floor _ (by decide)⟩

/-- C8: with rainbow enabled, a flush leaves the stored pixel buffer
untouched, two consecutive flushes with no intervening command produce
identical output, and the output is exactly the stored buffer with
`S * (i / N)` added to the hue of pixel `i` of `N` (then narrowed to
8 bits). -/
theorem claim8_rainbow_pure (s : Strip) (hr : s.rainbow ≠ 0) :
    (stripWrite s).1.leds = s.leds ∧
    (stripWrite ((stripWrite s).1)).2 = (stripWrite s).2 ∧
    (stripWrite s).2 =
      s.leds.enum.map
        (fun ie => pixCompU8 (rainbowPixel s.rainbow ie.1 s.leds.length ie.2)) := by
  simp only [stripWrite, hr, if_pos, ne_eq, not_false_eq_true, if_true]
  exact ⟨trivial, trivial, trivial⟩

/-- Witness for C8 at a concrete strip. -/
theorem claim8_rainbow_pure_witness :
    claim8Strip.rainbow ≠ 0 ∧
    ((stripWrite claim8Strip).1.leds = claim8Strip.leds ∧
    (stripWrite ((stripWrite claim8Strip).1)).2 = (stripWrite claim8Strip).2 ∧
    (stripWrite claim8Strip).2 =
      claim8Strip.leds.enum.map
        (fun ie => pixCompU8
          (rainbowPixel claim8Strip.rainbow ie.1 claim8Strip.leds.length ie.2))) :=
  ⟨by decide, claim8_rainbow_pure claim8Strip (by decide)⟩

/-- An error returned by a poll round is the result of one of the
children. -/
theorem pollRound_error_mem {ε : Type} :
    ∀ (st : List (CState ε)) (e : ε) (st2 : List (CState ε)),
      pollRound st = (some e, st2) → Except.error e ∈ st.map (·.res) := by
  intro st
  induction st with
  | nil => intro e st2 h; simp [pollRound] at h
  | cons c rest ih =>
    obtain ⟨rem, res, done⟩ := c
    intro e st2 h
    cases done with
    | true =>
      simp only [pollRound, if_pos] at h
      have h1 : (pollRound rest).1 = some e := by
        simpa using congrArg Prod.fst h
      exact List.mem_cons_of_mem _ (ih e (pollRound rest).2 (by rw [← h1]))
    | false =>
      cases rem with
      | zero =>
        cases res with
        | error e2 =>
          simp only [pollRound] at h
          have h1 : some e2 = some e := by simpa using congrArg Prod.fst h
          simp only [Option.some_inj] at h1
          subst h1
          exact List.mem_cons_self _ _
        | ok u =>
          simp only [pollRound] at h
          have h1 : (pollRound rest).1 = some e := by
            simpa using congrArg Prod.fst h
          exact List.mem_cons_of_mem _ (ih e (pollRound rest).2 (by rw [← h1]))
      | succ r =>
        simp only [pollRound] at h
        have h1 : (pollRound rest).1 = some e := by
          simpa using congrArg Prod.fst h
        exact List.mem_cons_of_mem _ (ih e (pollRound rest).2 (by rw [← h1]))

/-- A poll round never changes the results the children will report. -/
theorem pollRound_res_eq {ε : Type} :
    ∀ (st : List (CState ε)),
      (pollRound st).2.map (·.res) = st.map (·.res) := by
  intro st
  induction st with
  | nil => rfl
  | cons c rest ih =>
    obtain ⟨rem, res, done⟩ := c
    cases done with
    | true => simp [pollRound, ih]
    | false =>
      cases rem with
      | zero =>
        cases res with
        | error e2 => simp [pollRound]
        | ok u => simp [pollRound, ih]
      | succ r => simp [pollRound, ih]

/-- An error-free poll round keeps a pending erroring child pending. -/
theorem pollRound_none_pendErr {ε : Type} :
    ∀ (st st2 : List (CState ε)), pollRound st = (none, st2) →
      hasPendErr st → hasPendErr st2 := by
  intro st
  induction st with
  | nil => intro st2 h hp; obtain ⟨c, hc, _⟩ := hp; exact absurd hc (List.not_mem_nil c)
  | cons c rest ih =>
    obtain ⟨rem, res, done⟩ := c
    intro st2 h hp
    obtain ⟨w, hw, hwdone, e, hwres⟩ := hp
    cases done with
    | true =>
      simp only [pollRound, if_pos] at h
      have h1 : (pollRound rest).1 = none := by simpa using congrArg Prod.fst h
      have h2 : (⟨rem, res, true⟩ : CState ε) :: (pollRound rest).2 = st2 := by
        simpa using congrArg Prod.snd h
      rcases List.mem_cons.mp hw with hwh | hwt
      · rw [hwh] at hwdone; simp at hwdone
      · have hrec : hasPendErr (pollRound rest).2 :=
          ih (pollRound rest).2 (by rw [← h1]) ⟨w, hwt, hwdone, e, hwres⟩
        obtain ⟨w2, hw2, hrest⟩ := hrec
        exact ⟨w2, by rw [← h2]; exact List.mem_cons_of_mem _ hw2, hrest⟩
    | false =>
      cases rem with
      | zero =>
        cases res with
        | error e2 =>
          simp [pollRound] at h
        | ok u =>
          simp only [pollRound] at h
          have h1 : (pollRound rest).1 = none := by simpa using congrArg Prod.fst h
          have h2 : (⟨0, Except.ok u, true⟩ : CState ε) :: (pollRound rest).2 = st2 := by
            simpa using congrArg Prod.snd h
          rcases List.mem_cons.mp hw with hwh | hwt
          · rw [hwh] at hwres; simp at hwres
          · have hrec : hasPendErr (pollRound rest).2 :=
              ih (pollRound rest).2 (by rw [← h1]) ⟨w, hwt, hwdone, e, hwres⟩
            obtain ⟨w2, hw2, hrest⟩ := hrec
            exact ⟨w2, by rw [← h2]; exact List.mem_cons_of_mem _ hw2, hrest⟩
      | succ r =>
        simp only [pollRound] at h
        have h1 : (pollRound rest).1 = none := by simpa using congrArg Prod.fst h
        have h2 : (⟨r, res, false⟩ : CState ε) :: (pollRound rest).2 = st2 := by
          simpa using congrArg Prod.snd h
        rcases List.mem_cons.mp hw with hwh | hwt
        · have hres2 : res = Except.error e := by rw [hwh] at hwres; exact hwres
          refine ⟨⟨r, res, false⟩, ?_, rfl, e, hres2⟩
          rw [← h2]
          exact List.mem_cons_self _ _
        · have hrec : hasPendErr (pollRound rest).2 :=
            ih (pollRound rest).2 (by rw [← h1]) ⟨w, hwt, hwdone, e, hwres⟩
          obtain ⟨w2, hw2, hrest⟩ := hrec
          exact ⟨w2, by rw [← h2]; exact List.mem_cons_of_mem _ hw2, hrest⟩

/-- `tjaMeasure` unfolds over a cons. -/
theorem tjaMeasure_cons {ε : Type} (c : CState ε) (t : List (CState ε)) :
    tjaMeasure (c :: t) = (if c.done then 0 else c.rem + 1) + tjaMeasure t := by
  simp [tjaMeasure]

/-- `tjaMeasure` ignores a finished child. -/
theorem tjaMeasure_cons_done {ε : Type} (rem : ℕ) (res : Except ε Unit)
    (t : List (CState ε)) :
    tjaMeasure ((⟨rem, res, true⟩ : CState ε) :: t) = tjaMeasure t := by
  simp [tjaMeasure]

/-- `tjaMeasure` counts an unfinished child as its pending polls plus one. -/
theorem tjaMeasure_cons_undone {ε : Type} (rem : ℕ) (res : Except ε Unit)
    (t : List (CState ε)) :
    tjaMeasure ((⟨rem, res, false⟩ : CState ε) :: t) = rem + 1 + tjaMeasure t := by
  simp [tjaMeasure]

/-- An error-free poll round never increases the outstanding work. -/
theorem pollRound_none_measure_le {ε : Type} :
    ∀ (st st2 : List (CState ε)), pollRound st = (none, st2) →
      tjaMeasure st2 ≤ tjaMeasure st := by
  intro st
  induction st with
  | nil =>
    intro st2 h
    have h2 : ([] : List (CState ε)) = st2 := by
      simpa [pollRound] using congrArg Prod.snd h
    rw [← h2]
  | cons c rest ih =>
    obtain ⟨rem, res, done⟩ := c
    intro st2 h
    cases done with
    | true =>
      simp only [pollRound, if_pos] at h
      have h1 : (pollRound rest).1 = none := by simpa using congrArg Prod.fst h
      have h2 : (⟨rem, res, true⟩ : CState ε) :: (pollRound rest).2 = st2 := by
        simpa using congrArg Prod.snd h
      rw [← h2, tjaMeasure_cons_done, tjaMeasure_cons_done]
      exact ih (pollRound rest).2 (by rw [← h1])
    | false =>
      cases rem with
      | zero =>
        cases res with
        | error e2 => simp [pollRound] at h
        | ok u =>
          simp only [pollRound] at h
          have h1 : (pollRound rest).1 = none := by simpa using congrArg Prod.fst h
          have h2 : (⟨0, Except.ok u, true⟩ : CState ε) :: (pollRound rest).2 = st2 := by
            simpa using congrArg Prod.snd h
          rw [← h2, tjaMeasure_cons_done, tjaMeasure_cons_undone]
          have := ih (pollRound rest).2 (by rw [← h1])
          omega
      | succ r =>
        simp only [pollRound] at h
        have h1 : (pollRound rest).1 = none := by simpa using congrArg Prod.fst h
        have h2 : (⟨r, res, false⟩ : CState ε) :: (pollRound rest).2 = st2 := by
          simpa using congrArg Prod.snd h
        rw [← h2, tjaMeasure_cons_undone, tjaMeasure_cons_undone]
        have := ih (pollRound rest).2 (by rw [← h1])
        omega

/-- While some child is unfinished, an error-free poll round strictly
decreases the outstanding work. -/
theorem pollRound_none_measure_lt {ε : Type} :
    ∀ (st st2 : List (CState ε)), pollRound st = (none, st2) →
      allDone st = false → tjaMeasure st2 < tjaMeasure st := by
  intro st
  induction st with
  | nil => intro st2 h hall; simp [allDone] at hall
  | cons c rest ih =>
    obtain ⟨rem, res, done⟩ := c
    intro st2 h hall
    cases done with
    | true =>
      simp only [pollRound, if_pos] at h
      have h1 : (pollRound rest).1 = none := by simpa using congrArg Prod.fst h
      have h2 : (⟨rem, res, true⟩ : CState ε) :: (pollRound rest).2 = st2 := by
        simpa using congrArg Prod.snd h
      have hall2 : allDone rest = false := by simpa [allDone] using hall
      rw [← h2, tjaMeasure_cons_done, tjaMeasure_cons_done]
      exact ih (pollRound rest).2 (by rw [← h1]) hall2
    | false =>
      cases rem with
      | zero =>
        cases res with
        | error e2 => simp [pollRound] at h
        | ok u =>
          simp only [pollRound] at h
          have h1 : (pollRound rest).1 = none := by simpa using congrArg Prod.fst h
          have h2 : (⟨0, Except.ok u, true⟩ : CState ε) :: (pollRound rest).2 = st2 := by
            simpa using congrArg Prod.snd h
          rw [← h2, tjaMeasure_cons_done, tjaMeasure_cons_undone]
          have := pollRound_none_measure_le rest (pollRound rest).2 (by rw [← h1])
          omega
      | succ r =>
        simp only [pollRound] at h
        have h1 : (pollRound rest).1 = none := by simpa using congrArg Prod.fst h
        have h2 : (⟨r, res, false⟩ : CState ε) :: (pollRound rest).2 = st2 := by
          simpa using congrArg Prod.snd h
        rw [← h2, tjaMeasure_cons_undone, tjaMeasure_cons_undone]
        have := pollRound_none_measure_le rest (pollRound rest).2 (by rw [← h1])
        omega

/-- A pending erroring child means not all children are done. -/
theorem hasPendErr_not_allDone {ε : Type} (st : List (CState ε))
    (hp : hasPendErr st) : allDone st = false := by
  obtain ⟨c, hc, hdone, _⟩ := hp
  cases hall : allDone st with
  | false => rfl
  | true =>
    have hthis := List.all_eq_true.mp hall c hc
    rw [hdone] at hthis
    exact absurd hthis (by simp)

/-- With adequate fuel, `try_join_all` over a state holding a pending
erroring child returns an error, and that error is one of the children's
results. -/
theorem runTJA_err {ε : Type} :
    ∀ (fuel : ℕ) (st : List (CState ε)), tjaMeasure st < fuel → hasPendErr st →
      ∃ e, (runTJA fuel st).1 = some (Except.error e) ∧
        Except.error e ∈ st.map (·.res) := by
  intro fuel
  induction fuel with
  | zero => intro st h _; exact absurd h (Nat.not_lt_zero _)
  | succ fuel ih =>
    intro st hm hp
    have hnd : allDone st = false := hasPendErr_not_allDone st hp
    rcases hpoll : pollRound st with ⟨o, st2⟩
    cases o with
    | some e =>
      refine ⟨e, ?_, pollRound_error_mem st e st2 hpoll⟩
      simp [runTJA, hnd, hpoll]
    | none =>
      have hlt : tjaMeasure st2 < tjaMeasure st :=
        pollRound_none_measure_lt st st2 hpoll hnd
      have hp2 : hasPendErr st2 := pollRound_none_pendErr st st2 hpoll hp
      obtain ⟨e, he1, he2⟩ := ih st2 (by omega) hp2
      refine ⟨e, ?_, ?_⟩
      · simp [runTJA, hnd, hpoll, he1]
      · have hres := pollRound_res_eq st
        rw [hpoll] at hres
        rw [← hres]
        exact he2

/-- C6 amended: if at least one child write fails, the aggregate composite
write reports failure — the first error to become ready — even when every
other child succeeds; the reported error is one of the children's errors.
(The aggregate does not, however, await still-pending children on the
error path; see the counterexample.) -/
theorem claim6_composite_first_error_propagates {ε : Type}
    (children : List (ℕ × Except ε Unit)) (e : ε)
    (h : Except.error e ∈ children.map (·.2)) :
    ∃ e2, (tryJoinAll children).1 = some (Except.error e2) ∧
      Except.error e2 ∈ children.map (·.2) := by
  have hmap : (initTJA children).map (·.res) = children.map (·.2) := by
    rw [initTJA, List.map_map]
    rfl
  have hpend : hasPendErr (initTJA children) := by
    obtain ⟨c, hc, hres⟩ := List.mem_map.mp h
    exact ⟨⟨c.1, c.2, false⟩, List.mem_map.mpr ⟨c, hc, rfl⟩, rfl, e, hres⟩
  obtain ⟨e2, h1, h2⟩ := runTJA_err (tjaMeasure (initTJA children) + 1)
    (initTJA children) (Nat.lt_succ_self _) hpend
  exact ⟨e2, h1, hmap ▸ h2⟩

/-- Witness for C6: two children, the first failing immediately with error
code 7, the second succeeding after three polls. -/
theorem claim6_composite_first_error_propagates_witness :
    Except.error 7 ∈ ([(0, Except.error 7), (3, Except.ok ())] :
        List (ℕ × Except ℕ Unit)).map (·.2) ∧
    ∃ e2, (tryJoinAll [(0, Except.error 7), (3, Except.ok ())]).1 =
        some (Except.error e2) ∧
      Except.error e2 ∈ ([(0, Except.error 7), (3, Except.ok ())] :
        List (ℕ × Except ℕ Unit)).map (·.2) :=
  ⟨by simp, claim6_composite_first_error_propagates _ 7 (by simp)⟩

/-- C6 counterexample: with a first child that fails at once and a second
child that needs five more polls, the aggregate returns the failure while
the second child is still unfinished — it does not wait for all child
writes to finish before returning. -/
theorem claim6_composite_error_leaves_child_unfinished :
    (tryJoinAll [(0, Except.error 7), (5, Except.ok ())]).1 =
      some (Except.error 7) ∧
    (tryJoinAll [(0, Except.error 7), (5, Except.ok ())]).2.map (·.done) =
      [false, false] := by
  constructor <;> rfl

/-- The low band of the all-red buffer reads 255. -/
theorem chval_raw20_low : chval raw20 0 (15 / 100) = 255 := by
  have hlen : raw20.length = 20 := by simp [raw20]
  have hb0 : fracBound 0 raw20.length = 0 := by norm_num [fracBound]
  have hb15 : fracBound (15 / 100) raw20.length = 3 := by
    rw [fracBound, hlen]
    rw [if_neg (by norm_num), if_neg (by norm_num)]
    norm_num
    rfl
  simp only [chval, hb0, hb15]
  rw [show ((raw20.drop 0).take (3 - 0)).map (fun p => p.1) =
    [(255 : ℚ), 255, 255] from rfl]
  norm_num

/-- The mid band of the all-red buffer reads 255. -/
theorem chval_raw20_mid : chval raw20 (25 / 100) (50 / 100) = 255 := by
  have hlen : raw20.length = 20 := by simp [raw20]
  have hb25 : fracBound (25 / 100) raw20.length = 5 := by
    rw [fracBound, hlen]
    rw [if_neg (by norm_num), if_neg (by norm_num)]
    norm_num
    rfl
  have hb50 : fracBound (50 / 100) raw20.length = 10 := by
    rw [fracBound, hlen]
    rw [if_neg (by norm_num), if_neg (by norm_num)]
    norm_num
    rfl
  simp only [chval, hb25, hb50]
  rw [show ((raw20.drop 5).take (10 - 5)).map (fun p => p.1) =
    [(255 : ℚ), 255, 255, 255, 255] from rfl]
  norm_num

/-- The high band of the all-red buffer reads 255. -/
theorem chval_raw20_high : chval raw20 (50 / 100) 1 = 255 := by
  have hlen : raw20.length = 20 := by simp [raw20]
  have hb50 : fracBound (50 / 100) raw20.length = 10 := by
    rw [fracBound, hlen]
    rw [if_neg (by norm_num), if_neg (by norm_num)]
    norm_num
    rfl
  have hb1 : fracBound 1 raw20.length = 20 := by
    rw [fracBound, hlen]
    rw [if_neg (by norm_num), if_pos (by norm_num)]
  simp only [chval, hb50, hb1]
  rw [show ((raw20.drop 10).take (20 - 10)).map (fun p => p.1) =
    [(255 : ℚ), 255, 255, 255, 255, 255, 255, 255, 255, 255] from rfl]
  norm_num

/-- The sample of the all-red buffer at gain factor 1 (the value the factor
holds right after audio-vis is enabled). -/
theorem avCtr_raw20 : avCtr raw20 1 = ((306 : ℚ), 459 / 2, 255) := by
  simp only [avCtr, chval_raw20_low, chval_raw20_mid, chval_raw20_high]
  refine Prod.ext ?_ (Prod.ext ?_ ?_) <;> norm_num

/-- C9 counterexample: on a uniform pure-red buffer with the gain factor at
its enable-time value 1, the sample written to the center index has red
channel `255 * 1.2 * 1 = 306`, which exceeds full scale — the clamp only
constrains the factor used by later updates, not the sample written now. -/
theorem claim9_audvis_center_sample_exceeds_255 :
    (audvisProcess raw20 av20 1).1[10]? = some ((306 : ℚ), 459 / 2, 255) ∧
    ¬ ((306 : ℚ) ≤ 255) := by
  constructor
  · have hproc : (audvisProcess raw20 av20 1).1 =
        av20.set 10 (avCtr raw20 1) := by
      simp only [audvisProcess]
      have hlen : raw20.length = 20 := by simp [raw20]
      rw [hlen]
    rw [hproc, avCtr_raw20]
    exact List.getElem?_set_eq_of_lt _ (by simp [av20])
  · norm_num

/-- C9 amended: on every audio-visualization update the shared gain factor
increases by 0.001 and is then clamped: it stays in `[AVFACT_MIN,
AVFACT_MAX] = [1, 3]` and does not exceed `255 / peak` of the sample just
computed except to honor the lower clamp 1; the 3-channel sample written to
the buffer's center index is the one computed with the pre-update factor
(and can itself exceed 255). -/
theorem claim9_audvis_gain_clamp (rawleds avleds : List PixQ) (fact : ℚ)
    (hp : 0 < max3 (avCtr rawleds fact)) :
    1 ≤ (audvisProcess rawleds avleds fact).2 ∧
    (audvisProcess rawleds avleds fact).2 ≤ 3 ∧
    (audvisProcess rawleds avleds fact).2 ≤
      max 1 (255 / max3 (avCtr rawleds fact)) ∧
    (audvisProcess rawleds avleds fact).1 =
      avleds.set (rawleds.length / 2) (avCtr rawleds fact) := by
  have hne : max3 (avCtr rawleds fact) ≠ 0 := ne_of_gt hp
  simp only [audvisProcess, hne, if_false, AVFACT_MIN, AVFACT_MAX]
  refine ⟨le_max_left _ _, ?_, ?_, trivial⟩
  · exact max_le (by norm_num) (min_le_right _ _)
  · refine max_le (le_max_left _ _) (le_max_of_le_right ?_)
    exact le_trans (min_le_left _ _) (min_le_right _ _)

/-- Witness for C9 at the all-red buffer with factor 1. -/
theorem claim9_audvis_gain_clamp_witness :
    0 < max3 (avCtr raw20 1) ∧
    (1 ≤ (audvisProcess raw20 av20 1).2 ∧
    (audvisProcess raw20 av20 1).2 ≤ 3 ∧
    (audvisProcess raw20 av20 1).2 ≤ max 1 (255 / max3 (avCtr raw20 1)) ∧
    (audvisProcess raw20 av20 1).1 =
      av20.set (raw20.length / 2) (avCtr raw20 1)) :=
  ⟨by rw [avCtr_raw20]; norm_num [max3],
   claim9_audvis_gain_clamp raw20 av20 1 (by rw [avCtr_raw20]; norm_num [max3])⟩
